import Mathlib

/-!
# Verification of `github_api_calls.py`

A shallow embedding of the pure/observable logic of the repository's single
source file `.circleci/github_api_calls.py`, together with theorems checking
the natural-language specification against it.

Modelling conventions:
* Python strings that the code computes with are embedded as `List Char`
  (Python code-point strings); strings that are only carried around
  (organization, repository, labels) are embedded as Lean `String`.
* `None`-able Python values are `Option _`; Python truthiness of an optional
  string (`if token:`) is the `truthy` function below (absent or empty ⇒ falsy).
* Network calls are abstracted: functions that only *read* remote state take
  the relevant remote data as an input; functions that *mutate* remote state
  return the ordered list of mutating API calls they issue (`ApiCall` trace),
  paired with an `Option String` holding the message of a raised exception
  (`none` = normal return).  A raised exception aborts the trace at that point,
  exactly as an uncaught Python exception aborts the remaining calls.
-/

/-! ## Regex embeddings for the two parsers -/

/-- Scan for the first `')'` in the list, returning the characters before it.
Fails (`none`) if a newline (which `.` cannot match) or the end of the input
is reached first.  This is the tail of the lazy `.+?` of `r"\(#(.+?)\)"`. -/
def scanToParen : List Char → Option (List Char)
  | [] => none
  | c :: rest =>
    if c = ')' then some []
    else if c = '\n' then none
    else (scanToParen rest).map (fun cap => c :: cap)

/-- Attempt to match `(.+?)\)` directly after an occurrence of `(#`:
the lazy group must capture at least one (non-newline) character, then the
closing `')'` is the first `')'` after that first captured character. -/
def captureAt : List Char → Option (List Char)
  | [] => none
  | c :: rest =>
    if c = '\n' then none
    else (scanToParen rest).map (fun cap => c :: cap)

/-- Attempt to match `r"\(#(.+?)\)"` anchored at the head of the list. -/
def matchAt : List Char → Option (List Char)
  | '(' :: '#' :: rest => captureAt rest
  | _ => none

/-- Embedding of `parse_commit_for_pr` (github_api_calls.py:103-115):
`re.search(r"\(#(.+?)\)", commit)` returns the group of the leftmost match,
or `None` when there is no match. -/
def parse_commit_for_pr : List Char → Option (List Char)
  | [] => none
  | c :: rest =>
    match matchAt (c :: rest) with
    | some cap => some cap
    | none => parse_commit_for_pr rest

/-- The message contains a match of the regex `\(#(.+?)\)`: an occurrence of
`(#`, then at least one non-newline character, then `)`. -/
def hasParenHashPattern (m : List Char) : Prop :=
  ∃ p d s, m = p ++ '(' :: '#' :: (d ++ ')' :: s) ∧ d ≠ [] ∧ '\n' ∉ d

/-- Dropping a prefix cannot lengthen a list (termination helper). -/
theorem dropWhile_length_le (p : Char → Bool) :
    ∀ l : List Char, (l.dropWhile p).length ≤ l.length
  | [] => Nat.le_refl _
  | c :: rest => by
    simp only [List.dropWhile]
    split
    · exact Nat.le_succ_of_le (dropWhile_length_le p rest)
    · exact Nat.le_refl _

/-- Fuelled scanner for `re.findall(r"#\d+", m)`: at a `#` followed by at
least one digit, emit the `#` with the maximal digit run and resume after it;
otherwise move one character right.  The fuel (an upper bound on the input
length) only makes the recursion structural; see `findallHash`. -/
def findallHashAux : Nat → List Char → List (List Char)
  | 0, _ => []
  | _ + 1, [] => []
  | fuel + 1, c :: rest =>
    if c = '#' then
      if (rest.takeWhile Char.isDigit).isEmpty then findallHashAux fuel rest
      else ('#' :: rest.takeWhile Char.isDigit) ::
        findallHashAux fuel (rest.dropWhile Char.isDigit)
    else findallHashAux fuel rest

/-- `re.findall(r"#\d+", m)`: every non-overlapping occurrence, scanning left
to right, of `#` followed by a maximal non-empty run of digits. -/
def findallHash (l : List Char) : List (List Char) :=
  findallHashAux l.length l

/-- The fuel is irrelevant once it dominates the input length. -/
theorem findallHashAux_congr :
    ∀ (f₁ f₂ : Nat) (l : List Char), l.length ≤ f₁ → l.length ≤ f₂ →
      findallHashAux f₁ l = findallHashAux f₂ l
  | 0, f₂, l, h₁, _ => by
    cases l with
    | nil => cases f₂ <;> rfl
    | cons c rest => exact absurd h₁ (by simp)
  | _ + 1, 0, l, _, h₂ => by
    cases l with
    | nil => rfl
    | cons c rest => exact absurd h₂ (by simp)
  | f₁ + 1, f₂ + 1, [], _, _ => rfl
  | f₁ + 1, f₂ + 1, c :: rest, h₁, h₂ => by
    have hr₁ : rest.length ≤ f₁ := Nat.le_of_succ_le_succ h₁
    have hr₂ : rest.length ≤ f₂ := Nat.le_of_succ_le_succ h₂
    have hd₁ : (rest.dropWhile Char.isDigit).length ≤ f₁ :=
      Nat.le_trans (dropWhile_length_le _ _) hr₁
    have hd₂ : (rest.dropWhile Char.isDigit).length ≤ f₂ :=
      Nat.le_trans (dropWhile_length_le _ _) hr₂
    simp only [findallHashAux]
    split
    · split
      · exact findallHashAux_congr f₁ f₂ rest hr₁ hr₂
      · rw [findallHashAux_congr f₁ f₂ _ hd₁ hd₂]
    · exact findallHashAux_congr f₁ f₂ rest hr₁ hr₂

/-- Unfolding equation of `findallHash` on a non-empty input. -/
theorem findallHash_cons (c : Char) (rest : List Char) :
    findallHash (c :: rest) =
      if c = '#' then
        if (rest.takeWhile Char.isDigit).isEmpty then findallHash rest
        else ('#' :: rest.takeWhile Char.isDigit) ::
          findallHash (rest.dropWhile Char.isDigit)
      else findallHash rest := by
  show findallHashAux (rest.length + 1) (c :: rest) = _
  simp only [findallHashAux]
  split
  · split
    · exact findallHashAux_congr _ _ rest (Nat.le_refl _) (Nat.le_refl _)
    · rw [findallHashAux_congr rest.length (rest.dropWhile Char.isDigit).length
        (rest.dropWhile Char.isDigit) (dropWhile_length_le _ _) (Nat.le_refl _)]
      rfl
  · exact findallHashAux_congr _ _ rest (Nat.le_refl _) (Nat.le_refl _)

/-- Embedding of `parse_message_for_prs` (github_api_calls.py:151-162).
The argument is `Option`al because issue/comment bodies can be `null`;
`if not message: return []` handles both `None` and the empty string. -/
def parse_message_for_prs : Option (List Char) → List (List Char)
  | none => []
  | some m => if m.isEmpty then [] else findallHash m

/-! ## Characterisation of `parse_commit_for_pr` -/

theorem scanToParen_sound :
    ∀ {cs cap : List Char}, scanToParen cs = some cap →
      ∃ s, cs = cap ++ ')' :: s ∧ '\n' ∉ cap ∧ ')' ∉ cap
  | [], cap, h => by simp [scanToParen] at h
  | c :: rest, cap, h => by
    simp only [scanToParen] at h
    split at h
    · next hc =>
      subst hc
      obtain rfl : cap = [] := by simpa using h.symm
      exact ⟨rest, rfl, by simp, by simp⟩
    · next hc =>
      split at h
      · exact absurd h (by simp)
      · next hn =>
        obtain ⟨cap', hcap', rfl⟩ := Option.map_eq_some'.mp h
        obtain ⟨s, rfl, hnl, hpr⟩ := scanToParen_sound hcap'
        refine ⟨s, by simp, ?_, ?_⟩
        · simp only [List.mem_cons, not_or]
          exact ⟨fun h' => hn h'.symm, hnl⟩
        · simp only [List.mem_cons, not_or]
          exact ⟨fun h' => hc h'.symm, hpr⟩

theorem scanToParen_exact (xs s : List Char)
    (hpr : ')' ∉ xs) (hnl : '\n' ∉ xs) :
    scanToParen (xs ++ ')' :: s) = some xs := by
  induction xs with
  | nil => simp [scanToParen]
  | cons x xs ih =>
    have hx₁ : x ≠ ')' := fun h => hpr (h ▸ List.mem_cons_self x xs)
    have hx₂ : x ≠ '\n' := fun h => hnl (h ▸ List.mem_cons_self x xs)
    have ih' := ih (fun h => hpr (List.mem_cons_of_mem x h))
      (fun h => hnl (List.mem_cons_of_mem x h))
    simp [scanToParen, hx₁, hx₂, ih']

theorem scanToParen_complete (xs s : List Char) (hnl : '\n' ∉ xs) :
    ∃ cap, scanToParen (xs ++ ')' :: s) = some cap := by
  induction xs with
  | nil => exact ⟨[], by simp [scanToParen]⟩
  | cons x xs ih =>
    have hx : x ≠ '\n' := fun h => hnl (h ▸ List.mem_cons_self x xs)
    obtain ⟨cap, hcap⟩ := ih (fun h => hnl (List.mem_cons_of_mem x h))
    by_cases hp : x = ')'
    · exact ⟨[], by simp [scanToParen, hp]⟩
    · exact ⟨x :: cap, by simp [scanToParen, hp, hx, hcap]⟩

theorem captureAt_sound {cs cap : List Char} (h : captureAt cs = some cap) :
    ∃ s, cs = cap ++ ')' :: s ∧ cap ≠ [] ∧ '\n' ∉ cap := by
  match cs with
  | [] => simp [captureAt] at h
  | c :: rest =>
    simp only [captureAt] at h
    split at h
    · exact absurd h (by simp)
    · next hn =>
      obtain ⟨cap', hcap', rfl⟩ := Option.map_eq_some'.mp h
      obtain ⟨s, rfl, hnl, _⟩ := scanToParen_sound hcap'
      refine ⟨s, by simp, by simp, ?_⟩
      simp only [List.mem_cons, not_or]
      exact ⟨fun h' => hn h'.symm, hnl⟩

theorem captureAt_exact {d : List Char} (s : List Char)
    (hne : d ≠ []) (hnl : '\n' ∉ d) (hpr : ')' ∉ d) :
    captureAt (d ++ ')' :: s) = some d := by
  match d with
  | [] => exact absurd rfl hne
  | c :: d' =>
    have hc : c ≠ '\n' := fun h => hnl (h ▸ List.mem_cons_self c d')
    have h' := scanToParen_exact d' s
      (fun h => hpr (List.mem_cons_of_mem c h))
      (fun h => hnl (List.mem_cons_of_mem c h))
    simp [captureAt, hc, h']

theorem captureAt_complete (d s : List Char)
    (hne : d ≠ []) (hnl : '\n' ∉ d) :
    ∃ cap, captureAt (d ++ ')' :: s) = some cap := by
  match d with
  | [] => exact absurd rfl hne
  | c :: d' =>
    have hc : c ≠ '\n' := fun h => hnl (h ▸ List.mem_cons_self c d')
    obtain ⟨cap, hcap⟩ := scanToParen_complete d' s
      (fun h => hnl (List.mem_cons_of_mem c h))
    exact ⟨c :: cap, by simp [captureAt, hc, hcap]⟩

theorem matchAt_some {l cap : List Char} (h : matchAt l = some cap) :
    ∃ rest, l = '(' :: '#' :: rest ∧ captureAt rest = some cap := by
  unfold matchAt at h
  split at h
  · next rest => exact ⟨rest, rfl, h⟩
  · exact absurd h (by simp)

theorem matchAt_not_paren {c : Char} {rest : List Char} (hc : c ≠ '(') :
    matchAt (c :: rest) = none := by
  unfold matchAt
  split
  case _ h => exact absurd (List.head_eq_of_cons_eq h) hc
  · rfl

/-- Soundness: whatever `parse_commit_for_pr` returns really is the group of a
match of `\(#(.+?)\)`: a non-empty newline-free capture enclosed in `(#` ... `)`. -/
theorem parse_commit_for_pr_sound :
    ∀ {m cap : List Char}, parse_commit_for_pr m = some cap →
      ∃ p s, m = p ++ '(' :: '#' :: (cap ++ ')' :: s) ∧ cap ≠ [] ∧ '\n' ∉ cap
  | [], cap, h => by simp [parse_commit_for_pr] at h
  | c :: rest, cap, h => by
    rw [parse_commit_for_pr] at h
    split at h
    · next cap' hm =>
      obtain rfl : cap' = cap := by simpa using h
      obtain ⟨rest2, heq, hcapt⟩ := matchAt_some hm
      obtain ⟨s, rfl, hne, hnl⟩ := captureAt_sound hcapt
      exact ⟨[], s, by simpa using heq, hne, hnl⟩
    · obtain ⟨p, s, hm', hne, hnl⟩ := parse_commit_for_pr_sound h
      exact ⟨c :: p, s, by simp [hm'], hne, hnl⟩

/-- Completeness: if the message contains a match of `\(#(.+?)\)` then
`parse_commit_for_pr` finds one. -/
theorem parse_commit_for_pr_complete {m : List Char} (h : hasParenHashPattern m) :
    ∃ cap, parse_commit_for_pr m = some cap := by
  obtain ⟨p, d, s, rfl, hne, hnl⟩ := h
  induction p with
  | nil =>
    obtain ⟨cap, hcap⟩ := captureAt_complete d s hne hnl
    refine ⟨cap, ?_⟩
    simp only [List.nil_append]
    rw [parse_commit_for_pr]
    simp [matchAt, hcap]
  | cons c p ih =>
    obtain ⟨cap, hcap⟩ := ih
    rw [List.cons_append, parse_commit_for_pr]
    cases hm : matchAt (c :: (p ++ '(' :: '#' :: (d ++ ')' :: s))) with
    | some cap' => exact ⟨cap', by simp [hm]⟩
    | none => exact ⟨cap, by simp [hm, hcap]⟩

/-- `parse_commit_for_pr` returns `None` exactly on the messages with no
`\(#(.+?)\)` match. -/
theorem parse_commit_for_pr_none_iff (m : List Char) :
    parse_commit_for_pr m = none ↔ ¬ hasParenHashPattern m := by
  constructor
  · intro h hp
    obtain ⟨cap, hcap⟩ := parse_commit_for_pr_complete hp
    rw [h] at hcap
    exact Option.noConfusion hcap
  · intro h
    cases hres : parse_commit_for_pr m with
    | none => rfl
    | some cap =>
      obtain ⟨p, s, hm, hne, hnl⟩ := parse_commit_for_pr_sound hres
      exact absurd ⟨p, cap, s, hm, hne, hnl⟩ h

/-- First-match (left-to-right) behaviour: when the first `(` of the message
opens a well-formed `(#...)` group, the capture is exactly the characters
between `(#` and the next `)`, regardless of later pattern occurrences. -/
theorem parse_commit_for_pr_first :
    ∀ (p d s : List Char), '(' ∉ p → d ≠ [] → '\n' ∉ d → ')' ∉ d →
      parse_commit_for_pr (p ++ '(' :: '#' :: (d ++ ')' :: s)) = some d := by
  intro p d s hp hne hnl hpr
  induction p with
  | nil =>
    simp only [List.nil_append]
    rw [parse_commit_for_pr]
    simp [matchAt, captureAt_exact s hne hnl hpr]
  | cons c p ih =>
    have hc : c ≠ '(' := fun h => hp (h ▸ List.mem_cons_self c p)
    rw [List.cons_append, parse_commit_for_pr, matchAt_not_paren hc]
    exact ih (fun h => hp (List.mem_cons_of_mem c h))

/-- The parsed group is never the empty string (so Python's truthiness test
`if pr_id:` succeeds exactly when a match was found). -/
theorem parse_commit_for_pr_ne_nil {m cap : List Char}
    (h : parse_commit_for_pr m = some cap) : cap ≠ [] :=
  (parse_commit_for_pr_sound h).choose_spec.choose_spec.2.1

/-! ## Characterisation of `findallHash` / `parse_message_for_prs` -/

theorem dropWhile_eq_self_of_takeWhile_nil {p : Char → Bool} :
    ∀ {b : List Char}, b.takeWhile p = [] → b.dropWhile p = b
  | [], _ => rfl
  | x :: b, h => by
    simp only [List.takeWhile] at h
    simp only [List.dropWhile]
    cases hp : p x with
    | false => rfl
    | true => rw [hp] at h; exact absurd h (by simp)

theorem takeWhile_append_of_blocked {p : Char → Bool} {b : List Char}
    (hb : b.takeWhile p = []) :
    ∀ t : List Char, (t ++ b).takeWhile p = t.takeWhile p
  | [] => by simpa using hb
  | a :: t => by
    simp only [List.cons_append, List.takeWhile]
    cases p a with
    | false => rfl
    | true => simp [takeWhile_append_of_blocked hb t]

theorem dropWhile_append_of_blocked {p : Char → Bool} {b : List Char}
    (hb : b.takeWhile p = []) :
    ∀ t : List Char, (t ++ b).dropWhile p = t.dropWhile p ++ b
  | [] => by simp [dropWhile_eq_self_of_takeWhile_nil hb]
  | a :: t => by
    simp only [List.cons_append, List.dropWhile]
    cases p a with
    | false => rfl
    | true => simp [dropWhile_append_of_blocked hb t]

theorem takeWhile_eq_self_of_all {p : Char → Bool} :
    ∀ {d : List Char}, (∀ c ∈ d, p c = true) → d.takeWhile p = d
  | [], _ => rfl
  | x :: d, h => by
    simp only [List.takeWhile, h x (List.mem_cons_self x d)]
    rw [takeWhile_eq_self_of_all (fun c hc => h c (List.mem_cons_of_mem x hc))]

theorem dropWhile_eq_nil_of_all {p : Char → Bool} :
    ∀ {d : List Char}, (∀ c ∈ d, p c = true) → d.dropWhile p = []
  | [], _ => rfl
  | x :: d, h => by
    simp only [List.dropWhile, h x (List.mem_cons_self x d)]
    exact dropWhile_eq_nil_of_all (fun c hc => h c (List.mem_cons_of_mem x hc))

/-- Scanning a concatenation whose right part does not start with a digit
finds exactly the tokens of the left part followed by those of the right part
(no token can straddle the boundary). -/
theorem findallHash_append_aux :
    ∀ (n : Nat) (a b : List Char), a.length ≤ n →
      b.takeWhile Char.isDigit = [] →
      findallHash (a ++ b) = findallHash a ++ findallHash b := by
  intro n
  induction n with
  | zero =>
    intro a b ha _
    obtain rfl : a = [] := List.length_eq_zero.mp (Nat.le_zero.mp ha)
    simp [findallHash, findallHashAux]
  | succ n ih =>
    intro a b ha hb
    cases a with
    | nil => simp [findallHash, findallHashAux]
    | cons c t =>
      have ht : t.length ≤ n := Nat.le_of_succ_le_succ ha
      have htd : (t.dropWhile Char.isDigit).length ≤ n :=
        Nat.le_trans (dropWhile_length_le _ _) ht
      rw [List.cons_append, findallHash_cons, findallHash_cons,
        takeWhile_append_of_blocked hb, dropWhile_append_of_blocked hb]
      by_cases hc : c = '#'
      · simp only [hc, if_pos rfl]
        by_cases he : (t.takeWhile Char.isDigit).isEmpty
        · simp only [he, if_pos rfl]
          exact ih t b ht hb
        · rw [if_neg he, if_neg he, ih (t.dropWhile Char.isDigit) b htd hb]
          simp
      · simp only [if_neg hc]
        exact ih t b ht hb

/-- Wrapper of `findallHash_append_aux` without the fuel. -/
theorem findallHash_append (a b : List Char)
    (hb : b.takeWhile Char.isDigit = []) :
    findallHash (a ++ b) = findallHash a ++ findallHash b :=
  findallHash_append_aux a.length a b (Nat.le_refl _) hb

/-- A single well-formed token at the head of the input is emitted whole. -/
theorem findallHash_token {d : List Char} (hne : d ≠ [])
    (hd : ∀ c ∈ d, c.isDigit = true) :
    findallHash ('#' :: d) = ['#' :: d] := by
  rw [findallHash_cons]
  simp [takeWhile_eq_self_of_all hd, dropWhile_eq_nil_of_all hd, hne,
    findallHash, findallHashAux]

/-- Text without `#` contains no token. -/
theorem findallHash_no_hash : ∀ {m : List Char}, '#' ∉ m → findallHash m = []
  | [], _ => rfl
  | c :: rest, h => by
    have hc : c ≠ '#' := fun hh => h (hh ▸ List.mem_cons_self c rest)
    rw [findallHash_cons, if_neg hc]
    exact findallHash_no_hash (fun hh => h (List.mem_cons_of_mem c hh))

/-- The `if not message` guard is redundant for the empty string: on a present
message the function is just the regex scan. -/
theorem parse_message_for_prs_some (m : List Char) :
    parse_message_for_prs (some m) = findallHash m := by
  cases m with
  | nil => rfl
  | cons c rest => rfl

/-! ## Authentication and argument validation -/

/-- Python truthiness of an optional string: `None` and `""` are falsy. -/
def truthy : Option String → Bool
  | none => false
  | some s => !(s == "")

/-- The Authorization header that `build_headers` produces. -/
inductive AuthHeader where
  | tokenAuth (token : String)
  | basicAuth (username password : String)
  deriving DecidableEq

/-- Message of the exception raised by `build_headers`. -/
def missing_creds_msg : String :=
  "Either Authentication Token or Username + Password need to be included in request."

/-- Embedding of `build_headers` (github_api_calls.py:77-89): token wins if
truthy, else username+password, else the call raises (here: `Except.error`). -/
def build_headers (token username password : Option String) :
    Except String AuthHeader :=
  if truthy token then Except.ok (AuthHeader.tokenAuth (token.getD ""))
  else if truthy username && truthy password then
    Except.ok (AuthHeader.basicAuth (username.getD "") (password.getD ""))
  else Except.error missing_creds_msg

/-- Message of the `ValueError` raised by `validate_args` for ambiguous auth. -/
def auth_mode_msg : String :=
  "ERROR:\tOnly one form of authentication is required (either token or user/pass)."

/-- Message of the `ValueError` raised by `validate_args` for malformed extras;
it embeds the offending raw string. -/
def extras_msg (extras : String) : String :=
  "\n\nERROR:\tParamater \"extras\" is not formatted correctly. Incorrect syntax:\n\t"
    ++ extras

/-- Embedding of `validate_args` (github_api_calls.py:132-148).  `is_json` is
abstracted as the boolean input `extras_is_json` (no claim depends on JSON
syntax itself), the rest is the literal control flow. -/
def validate_args (token username : Option String) (extras : String)
    (extras_is_json : Bool) : Except String Unit :=
  if truthy token && truthy username then Except.error auth_mode_msg
  else if !extras_is_json then Except.error (extras_msg extras)
  else Except.ok ()

/-! ## Traces of mutating API calls -/

/-- A Python value as it flows through the dynamically-typed call sites. -/
inductive PyVal where
  | none
  | str (s : String)
  | num (n : Nat)
  deriving DecidableEq

/-- `vars(args)` values are optional strings. -/
def optStrVal : Option String → PyVal
  | none => PyVal.none
  | some s => PyVal.str s

/-- One mutating HTTP request issued against the remote API.  `add_labels`
issues a single POST carrying the whole label list; `delete_labels` issues one
DELETE per label; `dismiss_single_review` issues one PUT. -/
inductive ApiCall where
  | addLabels (pull_request_id : List Char) (labels : List String)
  | deleteLabel (pull_request_id : List Char) (label : String)
  | listReviews (organization repository pull_request_id : String)
  | dismissReview (organization repository : String)
      (pull_request_id review_id message : PyVal) (auth : AuthHeader)
  deriving DecidableEq

/-- Embedding of `label_merged_pr` (github_api_calls.py:529-569), with the
remote abstracted: `commit_message` is the message that
`get_commit_message(commit_id)` returns for the given commit.  The function
parses the message for a `(#...)` group; on a (necessarily non-empty, hence
truthy) match it issues the add-labels POST and then the per-label DELETEs;
on no match it issues no label call and returns normally. -/
def label_merged_pr (commit_message : List Char)
    (labels_to_add labels_to_delete : List String) : List ApiCall :=
  match parse_commit_for_pr commit_message with
  | some pr_id =>
    if pr_id.isEmpty then []
    else ApiCall.addLabels pr_id labels_to_add ::
      labels_to_delete.map (ApiCall.deleteLabel pr_id)
  | none => []

/-! ## Review dismissal -/

/-- A review as returned by the list-reviews endpoint; `id` is present only if
the JSON object contains an `"id"` key. -/
structure Review where
  id : Option Nat

/-- Embedding of `dismiss_single_review` (github_api_calls.py:369-388).
Parameters appear in the Python positional order
`(organization, repository, pull_request_id, review_id, message="...",
token=None, username=None, password=None)`; the three dynamically-typed slots
are `PyVal` because the buggy caller in `dismiss_all_reviews` fills them with
values of other types. -/
def dismiss_single_review (organization repository : String)
    (pull_request_id review_id message : PyVal)
    (token username password : Option String) : List ApiCall × Option String :=
  match build_headers token username password with
  | Except.error e => ([], some e)
  | Except.ok h =>
    ([ApiCall.dismissReview organization repository pull_request_id review_id
      message h], none)

/-- The `for review_id in review_ids:` loop of `dismiss_all_reviews`
(github_api_calls.py:422-425), with the source's literal positional call
`dismiss_single_review(organization, repository, token, pull_request_id,
review_id)`: the token lands in the `pull_request_id` slot, the pull-request
id in the `review_id` slot, the review id in the `message` slot, and
`token`/`username`/`password` stay at their `None` defaults.  The first raised
exception aborts the remaining iterations. -/
def dismissLoop (organization repository : String) (token : Option String)
    (pull_request_id : String) : List Nat → List ApiCall × Option String
  | [] => ([], none)
  | rid :: rest =>
    let step := dismiss_single_review organization repository
      (optStrVal token) (PyVal.str pull_request_id) (PyVal.num rid)
      none none none
    match step.2 with
    | some e => (step.1, some e)
    | none =>
      let next := dismissLoop organization repository token pull_request_id rest
      (step.1 ++ next.1, next.2)

/-- Embedding of `dismiss_all_reviews` (github_api_calls.py:391-425): build
headers, GET the review list (the `listReviews` trace entry), collect the ids
of the reviews whose JSON has an `"id"` key, then dismiss each in order via
the (mis-bound) positional call modelled by `dismissLoop`.  The unused
`message` parameter of the Python function is omitted. -/
def dismiss_all_reviews (organization repository pull_request_id : String)
    (token username password : Option String) (reviews : List Review) :
    List ApiCall × Option String :=
  match build_headers token username password with
  | Except.error e => ([], some e)
  | Except.ok _ =>
    let loop := dismissLoop organization repository token pull_request_id
      (reviews.filterMap Review.id)
    (ApiCall.listReviews organization repository pull_request_id :: loop.1,
      loop.2)

/-! ## Code-point string comparison (Python `<`/`sorted` on `str`) -/

/-- Python's `str` ordering: lexicographic on code points.  This is the
comparison `sorted(..., key=lambda x: x[1])` uses on `closed_at` strings. -/
def dateLe : List Char → List Char → Bool
  | [], _ => true
  | _ :: _, [] => false
  | a :: as, b :: bs =>
    if a.toNat < b.toNat then true
    else if b.toNat < a.toNat then false
    else dateLe as bs

theorem dateLe_cons_iff {a b : Char} {as bs : List Char} :
    dateLe (a :: as) (b :: bs) = true ↔
      a.toNat < b.toNat ∨ (a.toNat = b.toNat ∧ dateLe as bs = true) := by
  simp only [dateLe]
  split
  · next h => simp [h]
  · next h =>
    split
    · next h' => simp; omega
    · next h' =>
      have : a.toNat = b.toNat := by omega
      simp [this]

theorem dateLe_refl : ∀ a : List Char, dateLe a a = true
  | [] => rfl
  | c :: as => by
    rw [dateLe_cons_iff]
    exact Or.inr ⟨rfl, dateLe_refl as⟩

theorem dateLe_total : ∀ a b : List Char, dateLe a b = true ∨ dateLe b a = true
  | [], _ => Or.inl rfl
  | _ :: _, [] => Or.inr rfl
  | a :: as, b :: bs => by
    rw [dateLe_cons_iff, dateLe_cons_iff]
    rcases Nat.lt_trichotomy a.toNat b.toNat with h | h | h
    · exact Or.inl (Or.inl h)
    · rcases dateLe_total as bs with ih | ih
      · exact Or.inl (Or.inr ⟨h, ih⟩)
      · exact Or.inr (Or.inr ⟨h.symm, ih⟩)
    · exact Or.inr (Or.inl h)

theorem dateLe_trans :
    ∀ a b c : List Char, dateLe a b = true → dateLe b c = true →
      dateLe a c = true
  | [], _, _, _, _ => rfl
  | _ :: _, [], _, h, _ => by simp [dateLe] at h
  | _ :: _, _ :: _, [], _, h => by simp [dateLe] at h
  | a :: as, b :: bs, c :: cs, h₁, h₂ => by
    rw [dateLe_cons_iff] at h₁ h₂ ⊢
    rcases h₁ with h₁ | ⟨h₁, h₁'⟩ <;> rcases h₂ with h₂ | ⟨h₂, h₂'⟩
    · exact Or.inl (Nat.lt_trans h₁ h₂)
    · exact Or.inl (h₂ ▸ h₁)
    · exact Or.inl (h₁ ▸ h₂)
    · exact Or.inr ⟨h₁.trans h₂, dateLe_trans as bs cs h₁' h₂'⟩

/-- If `a ≤ b` fails then `b` is strictly smaller, in particular `b ≠ a`. -/
theorem dateLe_of_not_dateLe {a b : List Char} (h : ¬ dateLe a b = true) :
    dateLe b a = true ∧ b ≠ a := by
  rcases dateLe_total a b with h' | h'
  · exact absurd h' h
  · exact ⟨h', fun hab => h (hab ▸ dateLe_refl b)⟩

/-! ## Issues and the deploy workflow -/

/-- Python `s.startswith(pre)`. -/
def startsWithChars : List Char → List Char → Bool
  | _, [] => true
  | [], _ :: _ => false
  | c :: s, p :: ps => c = p && startsWithChars s ps

/-- A comment on an issue (only its nullable body is consumed). -/
structure IssueComment where
  body : Option (List Char)

/-- An issue as returned by the list-issues endpoint, restricted to the fields
the code consumes: `number`, `title`, nullable `body`, and the comments
reachable through `comments_url` (an absent/empty url is observationally the
same as an empty comment list, since it only skips the GET). -/
structure Issue where
  number : Nat
  title : List Char
  body : Option (List Char)
  comments : List IssueComment

/-- `"Deploy Request: %s" % pendulum.now().format("YYYY-MM-DD")`, with the
clock abstracted into the `today` argument. -/
def deployRequestTitle (today : List Char) : List Char :=
  "Deploy Request: ".toList ++ today

/-- Embedding of `get_deploy_issue_number` (github_api_calls.py:453-473): the
remote's open-issue list (single page, remote order) is the `issues` input;
return the number of the first issue whose title starts with
`"Deploy Request: {today}"`, else `None`. -/
def get_deploy_issue_number (today : List Char) : List Issue → Option Nat
  | [] => none
  | issue :: rest =>
    if startsWithChars issue.title (deployRequestTitle today) then
      some issue.number
    else get_deploy_issue_number today rest

/-- `#PR` mentions of a list of comments, in remote order. -/
def comments_mentions : List IssueComment → List (List Char)
  | [] => []
  | c :: rest => parse_message_for_prs c.body ++ comments_mentions rest

/-- The `pr_list` accumulated by the issue loop of `get_prs_to_deploy`
(github_api_calls.py:495-513): for every issue whose title matches today's
deploy title, the body's mentions followed by the comments' mentions. -/
def collect_deploy_prs (today : List Char) : List Issue → List (List Char)
  | [] => []
  | issue :: rest =>
    (if startsWithChars issue.title (deployRequestTitle today) then
      parse_message_for_prs issue.body ++ comments_mentions issue.comments
    else []) ++ collect_deploy_prs today rest

/-- Python `s.lstrip("#")` (as applied inside `get_issue_close_date`). -/
def lstripHash (s : List Char) : List Char :=
  s.dropWhile (fun c => c = '#')

/-- Python `s.strip("#")`: strip `#` from both ends. -/
def stripHash (s : List Char) : List Char :=
  ((s.dropWhile (fun c => c = '#')).reverse.dropWhile (fun c => c = '#')).reverse

/-- The comparison `sorted(pr_tup_list_with_dates, key=lambda x: x[1])` sorts
by: Python string `≤` on the `closed_at` component. -/
def keyLe : (List Char × List Char) → (List Char × List Char) → Prop :=
  fun x y => dateLe x.2 y.2 = true

instance : DecidableRel keyLe :=
  fun x y => inferInstanceAs (Decidable (dateLe x.2 y.2 = true))

instance keyLe_isTotal : IsTotal (List Char × List Char) keyLe :=
  ⟨fun a b => dateLe_total a.2 b.2⟩

instance keyLe_isTrans : IsTrans (List Char × List Char) keyLe :=
  ⟨fun a b c => dateLe_trans a.2 b.2 c.2⟩

/-- Embedding of `get_prs_to_deploy` (github_api_calls.py:476-526).  The
remote is abstracted: `issues` is the open-issue list and `closed_at id` the
`closed_at` string the issues endpoint reports for the (already `lstrip`ped)
id.  `sorted(..., key=lambda x: x[1])` is Python's stable ascending sort,
realised here by the stable `List.insertionSort`. -/
def get_prs_to_deploy (today : List Char) (closed_at : List Char → List Char)
    (issues : List Issue) : List (List Char) :=
  let pr_list := collect_deploy_prs today issues
  let pr_tup_list_with_dates := pr_list.map (fun pr => (pr, closed_at (lstripHash pr)))
  (List.insertionSort keyLe pr_tup_list_with_dates).map (fun x => stripHash x.1)

/-! ## Deleted files of a commit -/

/-- One entry of a commit's `files` list, restricted to the consumed keys.
(`previous_filename` is always sent by the remote for `renamed` entries, and
the code reads it only there.) -/
structure FileEntry where
  filename : String
  status : String
  previous_filename : String

/-- Embedding of `list_deleted_files` (github_api_calls.py:656-700), with the
remote abstracted into the commit's `files` list: per entry, the two
independent `if` tests of the source record the current filename for status
`"removed"` and the previous filename for status `"renamed"`; every other
status contributes nothing. -/
def list_deleted_files : List FileEntry → List String
  | [] => []
  | f :: rest =>
    (if f.status = "removed" then [f.filename] else []) ++
    (if f.status = "renamed" then [f.previous_filename] else []) ++
    list_deleted_files rest

/-! ## The dispatcher's parameter merge -/

/-- Insert/overwrite one key in a Python dict held as an ordered assoc list
(Python dicts preserve insertion order; updating keeps the key's position). -/
def dictInsert : List (String × PyVal) → String → PyVal → List (String × PyVal)
  | [], k, v => [(k, v)]
  | (k₀, v₀) :: rest, k, v =>
    if k₀ = k then (k₀, v) :: rest
    else (k₀, v₀) :: dictInsert rest k v

/-- Python's `{**base, **extras}`. -/
def dictMerge (base extras : List (String × PyVal)) : List (String × PyVal) :=
  extras.foldl (fun d kv => dictInsert d kv.1 kv.2) base

/-- Key lookup in the assoc-list dict. -/
def lookupKey (k : String) : List (String × PyVal) → Option PyVal
  | [] => none
  | (k₀, v₀) :: rest => if k₀ = k then some v₀ else lookupKey k rest

/-- The argparse namespace of `main` (every flag is an optional string). -/
structure CliArgs where
  organization : Option String
  repository : Option String
  token : Option String
  username : Option String
  password : Option String
  pull_request_id : Option String
  command : Option String
  extras : Option String

/-- `vars(args)`: the base named parameters, in argparse registration order. -/
def varsArgs (a : CliArgs) : List (String × PyVal) :=
  [("organization", optStrVal a.organization),
   ("repository", optStrVal a.repository),
   ("token", optStrVal a.token),
   ("username", optStrVal a.username),
   ("password", optStrVal a.password),
   ("pull_request_id", optStrVal a.pull_request_id),
   ("command", optStrVal a.command),
   ("extras", optStrVal a.extras)]

/-- `parameters = {**vars(args), **json.loads(args.extras)}`
(github_api_calls.py:776): the merged keyword-argument set handed to the
operation selected by `globals()[args.command]`. -/
def main_parameters (a : CliArgs) (extras_dict : List (String × PyVal)) :
    List (String × PyVal) :=
  dictMerge (varsArgs a) extras_dict

/-- The prefix of `main` relevant to validation (github_api_calls.py:773-783):
`validate_args` runs before the extras are merged and before the dispatched
operation issues any request; a `ValueError` there aborts with no API call.
`op` abstracts the dispatched operation's trace and outcome. -/
def main_run (token username : Option String) (extras : String)
    (extras_is_json : Bool) (op : List ApiCall × Option String) :
    List ApiCall × Option String :=
  match validate_args token username extras extras_is_json with
  | Except.error e => ([], some e)
  | Except.ok _ => op

/-! ## Stability of the deploy sort -/

theorem filter_orderedInsert_eq (x : List Char × List Char) :
    ∀ L, (List.orderedInsert keyLe x L).filter (fun y => y.2 = x.2) =
      x :: L.filter (fun y => y.2 = x.2)
  | [] => by simp
  | b :: t => by
    simp only [List.orderedInsert]
    split
    · simp
    · next h =>
      have hb : b.2 ≠ x.2 := (dateLe_of_not_dateLe h).2
      simp [List.filter_cons, hb, filter_orderedInsert_eq x t]

theorem filter_orderedInsert_ne (x : List Char × List Char) (d : List Char)
    (hd : x.2 ≠ d) :
    ∀ L, (List.orderedInsert keyLe x L).filter (fun y => y.2 = d) =
      L.filter (fun y => y.2 = d)
  | [] => by simp [hd]
  | b :: t => by
    simp only [List.orderedInsert]
    split
    · simp [List.filter_cons, hd]
    · simp [List.filter_cons, filter_orderedInsert_ne x d hd t]

/-- Stability of `List.insertionSort keyLe`: elements with any fixed key keep
their original relative order (the classic specification of a stable sort,
which pins down Python's `sorted` extensionally together with sortedness and
permutation). -/
theorem filter_insertionSort (d : List Char) :
    ∀ pairs, (List.insertionSort keyLe pairs).filter (fun y => y.2 = d) =
      pairs.filter (fun y => y.2 = d)
  | [] => rfl
  | x :: t => by
    simp only [List.insertionSort]
    by_cases hx : x.2 = d
    · subst hx
      rw [filter_orderedInsert_eq x (List.insertionSort keyLe t),
        filter_insertionSort x.2 t]
      simp
    · rw [filter_orderedInsert_ne x d hx (List.insertionSort keyLe t),
        filter_insertionSort d t]
      simp [List.filter_cons, hx]

/-! ## First-match characterisation of the deploy-issue search -/

theorem get_deploy_issue_number_eq_find (today : List Char) :
    ∀ issues : List Issue,
      get_deploy_issue_number today issues =
        (issues.find?
          (fun i => startsWithChars i.title (deployRequestTitle today))).map
            Issue.number
  | [] => rfl
  | i :: rest => by
    simp only [get_deploy_issue_number, List.find?]
    cases h : startsWithChars i.title (deployRequestTitle today) with
    | true => simp [h]
    | false => simp [h, get_deploy_issue_number_eq_find today rest]

/-! ## Lookup lemmas for the parameter merge -/

theorem lookupKey_dictInsert_self (k : String) (v : PyVal) :
    ∀ d, lookupKey k (dictInsert d k v) = some v
  | [] => by simp [dictInsert, lookupKey]
  | (k₀, v₀) :: rest => by
    simp only [dictInsert]
    split
    · next h => simp [lookupKey, h]
    · next h => simp [lookupKey, h, lookupKey_dictInsert_self k v rest]

theorem lookupKey_dictInsert_ne {k' k : String} (hne : k ≠ k') (v : PyVal) :
    ∀ d, lookupKey k' (dictInsert d k v) = lookupKey k' d
  | [] => by simp [dictInsert, lookupKey, hne]
  | (k₀, v₀) :: rest => by
    simp only [dictInsert]
    split
    · next h => simp [lookupKey, h, hne]
    · next h => simp [lookupKey, lookupKey_dictInsert_ne hne v rest]

theorem lookupKey_eq_none_of_not_mem {k : String} :
    ∀ {l : List (String × PyVal)}, k ∉ l.map Prod.fst → lookupKey k l = none
  | [], _ => rfl
  | (k₀, v₀) :: rest, h => by
    have h₀ : k₀ ≠ k := fun he => h (by simp [he])
    simp only [lookupKey, h₀, if_false]
    exact lookupKey_eq_none_of_not_mem (fun hm => h (by simp [hm]))

theorem lookupKey_dictMerge_of_none {k : String} :
    ∀ {extras : List (String × PyVal)} (base : List (String × PyVal)),
      lookupKey k extras = none →
      lookupKey k (dictMerge base extras) = lookupKey k base
  | [], base, _ => rfl
  | (k₀, v₀) :: rest, base, h => by
    simp only [lookupKey] at h
    by_cases h₀ : k₀ = k
    · rw [if_pos h₀] at h
      exact absurd h (by simp)
    · rw [if_neg h₀] at h
      show lookupKey k (dictMerge (dictInsert base k₀ v₀) rest) = _
      rw [lookupKey_dictMerge_of_none (dictInsert base k₀ v₀) h,
        lookupKey_dictInsert_ne h₀ v₀ base]

theorem lookupKey_dictMerge_of_some {k : String} {v : PyVal} :
    ∀ {extras : List (String × PyVal)} (base : List (String × PyVal)),
      (extras.map Prod.fst).Nodup → lookupKey k extras = some v →
      lookupKey k (dictMerge base extras) = some v
  | [], _, _, h => by simp [lookupKey] at h
  | (k₀, v₀) :: rest, base, hnd, h => by
    simp only [List.map_cons, List.nodup_cons] at hnd
    simp only [lookupKey] at h
    by_cases h₀ : k₀ = k
    · rw [if_pos h₀] at h
      obtain rfl : v₀ = v := by simpa using h
      subst h₀
      show lookupKey k₀ (dictMerge (dictInsert base k₀ v₀) rest) = some v₀
      rw [lookupKey_dictMerge_of_none (dictInsert base k₀ v₀)
        (lookupKey_eq_none_of_not_mem hnd.1),
        lookupKey_dictInsert_self k₀ v₀ base]
    · rw [if_neg h₀] at h
      exact lookupKey_dictMerge_of_some (dictInsert base k₀ v₀) hnd.2 h

/-! ## The claims -/

/-- Claim C1: `get_prs_to_deploy` collects the matching Deploy Issue's body
mentions before its comment mentions, stable-sorts the `(id, closed_at)` pairs
ascending by `closed_at` (preserving original relative order on equal
timestamps), and returns the ids with the `#` stripped; on the concrete
example (body `#10, #20`, comment `#15`, closed_at `10↦2024-01-03`,
`20↦2024-01-01`, `15↦2024-01-02`) it returns exactly `["20", "15", "10"]`. -/
theorem claim_get_prs_to_deploy :
    (∀ (today : List Char) (closed_at : List Char → List Char)
        (issues : List Issue),
      get_prs_to_deploy today closed_at issues =
        (List.insertionSort keyLe
          ((collect_deploy_prs today issues).map
            (fun pr => (pr, closed_at (lstripHash pr))))).map
          (fun x => stripHash x.1) ∧
      List.Sorted keyLe
        (List.insertionSort keyLe
          ((collect_deploy_prs today issues).map
            (fun pr => (pr, closed_at (lstripHash pr))))) ∧
      (List.insertionSort keyLe
        ((collect_deploy_prs today issues).map
          (fun pr => (pr, closed_at (lstripHash pr))))).Perm
        ((collect_deploy_prs today issues).map
          (fun pr => (pr, closed_at (lstripHash pr)))) ∧
      ∀ d, (List.insertionSort keyLe
          ((collect_deploy_prs today issues).map
            (fun pr => (pr, closed_at (lstripHash pr))))).filter
          (fun y => y.2 = d) =
        ((collect_deploy_prs today issues).map
          (fun pr => (pr, closed_at (lstripHash pr)))).filter
          (fun y => y.2 = d)) ∧
    (∀ (today : List Char) (issue : Issue) (rest : List Issue),
      startsWithChars issue.title (deployRequestTitle today) = true →
      collect_deploy_prs today (issue :: rest) =
        parse_message_for_prs issue.body ++ comments_mentions issue.comments
          ++ collect_deploy_prs today rest) ∧
    get_prs_to_deploy "2024-06-01".toList
      (fun id =>
        if id = "10".toList then "2024-01-03".toList
        else if id = "20".toList then "2024-01-01".toList
        else if id = "15".toList then "2024-01-02".toList
        else [])
      [{ number := 77, title := "Deploy Request: 2024-06-01".toList,
         body := some "#10, #20".toList,
         comments := [{ body := some "please also #15".toList }] }] =
      ["20".toList, "15".toList, "10".toList] := by
  refine ⟨fun today closed_at issues =>
    ⟨rfl, List.sorted_insertionSort keyLe _, List.perm_insertionSort keyLe _,
      fun d => filter_insertionSort d _⟩,
    fun today issue rest h => ?_, by decide⟩
  simp [collect_deploy_prs, h, List.append_assoc]

/-- Witness for C1: the body-before-comments collection conjunct at the
concrete Deploy Issue of the example. -/
theorem claim_get_prs_to_deploy_witness :
    collect_deploy_prs "2024-06-01".toList
      [{ number := 77, title := "Deploy Request: 2024-06-01".toList,
         body := some "#10, #20".toList,
         comments := [{ body := some "please also #15".toList }] }] =
      parse_message_for_prs (some "#10, #20".toList) ++
        comments_mentions [{ body := some "please also #15".toList }] ++
        collect_deploy_prs "2024-06-01".toList [] :=
  claim_get_prs_to_deploy.2.1 "2024-06-01".toList
    { number := 77, title := "Deploy Request: 2024-06-01".toList,
      body := some "#10, #20".toList,
      comments := [{ body := some "please also #15".toList }] } [] (by decide)

/-- Claim C2: for a commit message containing a `(#id)` pattern,
`label_merged_pr` issues the add-labels call for the resolved PR id with
`labels_to_add` and then the delete-labels calls for the same id with
`labels_to_delete`, in that order; for a message with no such pattern it
issues no label call at all and returns normally. -/
theorem claim_label_merged_pr :
    ∀ (commit_message : List Char) (labels_to_add labels_to_delete : List String),
      (hasParenHashPattern commit_message →
        ∃ pr_id, parse_commit_for_pr commit_message = some pr_id ∧
          label_merged_pr commit_message labels_to_add labels_to_delete =
            ApiCall.addLabels pr_id labels_to_add ::
              labels_to_delete.map (ApiCall.deleteLabel pr_id)) ∧
      (¬ hasParenHashPattern commit_message →
        label_merged_pr commit_message labels_to_add labels_to_delete = []) := by
  intro msg add del
  constructor
  · intro hp
    obtain ⟨cap, hcap⟩ := parse_commit_for_pr_complete hp
    refine ⟨cap, hcap, ?_⟩
    have hne := parse_commit_for_pr_ne_nil hcap
    simp [label_merged_pr, hcap, hne]
  · intro hp
    have h0 : parse_commit_for_pr msg = none :=
      (parse_commit_for_pr_none_iff msg).mpr hp
    simp [label_merged_pr, h0]

/-- Witness for C2: the commit message `"fix bug (#42)"` with the default
label sets yields the add call for PR 42 followed by the delete call. -/
theorem claim_label_merged_pr_witness :
    ∃ pr_id, parse_commit_for_pr "fix bug (#42)".toList = some pr_id ∧
      label_merged_pr "fix bug (#42)".toList ["main"] ["in_development"] =
        ApiCall.addLabels pr_id ["main"] ::
          ["in_development"].map (ApiCall.deleteLabel pr_id) :=
  (claim_label_merged_pr "fix bug (#42)".toList ["main"] ["in_development"]).1
    ⟨"fix bug ".toList, "42".toList, [], by decide, by decide, by decide⟩

/-- Claim C3: `parse_commit_for_pr` returns the group of the first `(#...)`
pattern scanning left to right (permissive: any non-empty newline-free
content), and returns `None` exactly when the message has no such pattern. -/
theorem claim_parse_commit_for_pr :
    (∀ p d s : List Char, '(' ∉ p → d ≠ [] → '\n' ∉ d → ')' ∉ d →
      parse_commit_for_pr (p ++ '(' :: '#' :: (d ++ ')' :: s)) = some d) ∧
    (∀ m : List Char, parse_commit_for_pr m = none ↔ ¬ hasParenHashPattern m) :=
  ⟨parse_commit_for_pr_first, parse_commit_for_pr_none_iff⟩

/-- Witness for C3: `"commit msg (#123) and (#456)"` parses to `"123"` (only
the first match is used). -/
theorem claim_parse_commit_for_pr_witness :
    parse_commit_for_pr
      ("commit msg ".toList ++ '(' :: '#' ::
        ("123".toList ++ ')' :: " and (#456)".toList)) = some "123".toList :=
  claim_parse_commit_for_pr.1 "commit msg ".toList "123".toList
    " and (#456)".toList (by decide) (by decide) (by decide) (by decide)

/-- Claim C4: `parse_message_for_prs` returns the empty sequence on absent or
empty input and on `#`-free text; on present text it is exactly the
left-to-right scan for non-overlapping `#<digits>` tokens: a leading maximal
digit-run token is emitted whole, and scanning distributes over a split at any
non-digit boundary (so every token of the text appears, in order of
appearance, duplicates included). -/
theorem claim_parse_message_for_prs :
    (parse_message_for_prs none = []) ∧
    (parse_message_for_prs (some []) = []) ∧
    (∀ m : List Char, '#' ∉ m → parse_message_for_prs (some m) = []) ∧
    (∀ m : List Char, parse_message_for_prs (some m) = findallHash m) ∧
    (∀ d : List Char, d ≠ [] → (∀ c ∈ d, c.isDigit = true) →
      findallHash ('#' :: d) = ['#' :: d]) ∧
    (∀ a b : List Char, b.takeWhile Char.isDigit = [] →
      findallHash (a ++ b) = findallHash a ++ findallHash b) := by
  refine ⟨rfl, rfl, ?_, parse_message_for_prs_some,
    fun d hne hd => findallHash_token hne hd,
    fun a b hb => findallHash_append a b hb⟩
  intro m hm
  rw [parse_message_for_prs_some]
  exact findallHash_no_hash hm

/-- Witness for C4: splitting `"#7, #8 plus #7 again"` after the first token
distributes the scan, preserving the duplicate `#7`. -/
theorem claim_parse_message_for_prs_witness :
    findallHash ("#7".toList ++ ", #8 plus #7 again".toList) =
      findallHash "#7".toList ++ findallHash ", #8 plus #7 again".toList :=
  claim_parse_message_for_prs.2.2.2.2.2 "#7".toList
    ", #8 plus #7 again".toList (by decide)

/-- Claim C5: `list_deleted_files` records the current filename for status
`"removed"`, the previous filename for status `"renamed"`, ignores every
other status, preserves the order of the file-change list, and on the
concrete example returns exactly `["a.txt", "b_old.txt"]`. -/
theorem claim_list_deleted_files :
    (list_deleted_files
      [{ filename := "a.txt", status := "removed", previous_filename := "" },
       { filename := "b.txt", status := "renamed", previous_filename := "b_old.txt" },
       { filename := "c.txt", status := "modified", previous_filename := "" }] =
      ["a.txt", "b_old.txt"]) ∧
    (∀ (f : FileEntry) (rest : List FileEntry), f.status = "removed" →
      list_deleted_files (f :: rest) = f.filename :: list_deleted_files rest) ∧
    (∀ (f : FileEntry) (rest : List FileEntry), f.status = "renamed" →
      list_deleted_files (f :: rest) =
        f.previous_filename :: list_deleted_files rest) ∧
    (∀ (f : FileEntry) (rest : List FileEntry),
      f.status ≠ "removed" → f.status ≠ "renamed" →
      list_deleted_files (f :: rest) = list_deleted_files rest) ∧
    (∀ l₁ l₂ : List FileEntry,
      list_deleted_files (l₁ ++ l₂) =
        list_deleted_files l₁ ++ list_deleted_files l₂) := by
  refine ⟨by decide, ?_, ?_, ?_, ?_⟩
  · intro f rest h
    simp [list_deleted_files, h]
  · intro f rest h
    simp [list_deleted_files, h]
  · intro f rest h₁ h₂
    simp [list_deleted_files, h₁, h₂]
  · intro l₁ l₂
    induction l₁ with
    | nil => rfl
    | cons f rest ih => simp [list_deleted_files, ih, List.append_assoc]

/-- Witness for C5: a single `"removed"` entry contributes its filename. -/
theorem claim_list_deleted_files_witness :
    list_deleted_files
      [{ filename := "gone.py", status := "removed", previous_filename := "" }] =
      "gone.py" :: list_deleted_files [] :=
  claim_list_deleted_files.2.1
    { filename := "gone.py", status := "removed", previous_filename := "" } []
    (by decide)

/-- Claim C6: `get_deploy_issue_number` returns the number of the first issue
(in the order the remote returned them) whose title starts with
`"Deploy Request: {today}"`, and `None` when no issue matches. -/
theorem claim_get_deploy_issue_number :
    ∀ (today : List Char) (issues : List Issue),
      get_deploy_issue_number today issues =
        (issues.find?
          (fun i => startsWithChars i.title (deployRequestTitle today))).map
          Issue.number :=
  fun today issues => get_deploy_issue_number_eq_find today issues

/-- Claim C7: with neither a truthy token nor a truthy username/password pair,
`build_headers` raises the missing-credentials error, and an operation
(modelled here by `dismiss_all_reviews`, which like every operation builds its
headers first) aborts with that error before issuing any network call. -/
theorem claim_build_headers_no_creds :
    ∀ (token username password : Option String)
      (organization repository pull_request_id : String) (reviews : List Review),
      truthy token = false →
      truthy username = false ∨ truthy password = false →
      build_headers token username password = Except.error missing_creds_msg ∧
      dismiss_all_reviews organization repository pull_request_id
        token username password reviews = ([], some missing_creds_msg) := by
  intro t u p org repo pr reviews ht hup
  have hb : build_headers t u p = Except.error missing_creds_msg := by
    unfold build_headers
    rcases hup with h | h <;> simp [ht, h]
  exact ⟨hb, by simp [dismiss_all_reviews, hb]⟩

/-- Witness for C7: all-absent credentials. -/
theorem claim_build_headers_no_creds_witness :
    build_headers none none none = Except.error missing_creds_msg ∧
    dismiss_all_reviews "octo" "repo" "12" none none none [{ id := some 9 }] =
      ([], some missing_creds_msg) :=
  claim_build_headers_no_creds none none none "octo" "repo" "12"
    [{ id := some 9 }] rfl (Or.inl rfl)

/-- Claim C8: with both a truthy token and a truthy username supplied, the
invocation is rejected by `validate_args` with the one-form-of-authentication
`ValueError`, before the dispatched operation can issue any request. -/
theorem claim_validate_args_both :
    ∀ (token username : Option String) (extras : String) (extras_is_json : Bool)
      (op : List ApiCall × Option String),
      truthy token = true → truthy username = true →
      validate_args token username extras extras_is_json =
        Except.error auth_mode_msg ∧
      main_run token username extras extras_is_json op =
        ([], some auth_mode_msg) := by
  intro t u ex ej op ht hu
  have hv : validate_args t u ex ej = Except.error auth_mode_msg := by
    simp [validate_args, ht, hu]
  exact ⟨hv, by simp [main_run, hv]⟩

/-- Witness for C8: token and username both present. -/
theorem claim_validate_args_both_witness :
    validate_args (some "tok") (some "user") "\x7b\x7d" true =
      Except.error auth_mode_msg ∧
    main_run (some "tok") (some "user") "\x7b\x7d" true ([], none) =
      ([], some auth_mode_msg) :=
  claim_validate_args_both (some "tok") (some "user") "\x7b\x7d" true
    ([], none) rfl rfl

/-- Claim C9: when `dismiss_all_reviews` finds at least one review carrying an
id, its positional inner call binds the token to the `pull_request_id`
parameter, the pull-request id to `review_id`, the review id to `message`,
and leaves `token`/`username`/`password` at `None`; consequently (under
token-only outer authentication) the inner call raises the
missing-credentials error and the operation aborts having issued only the
list-reviews GET — no dismissal request at all. -/
theorem claim_dismiss_all_reviews_misbinding :
    ∀ (organization repository pull_request_id : String)
      (token username password : Option String) (reviews : List Review),
      truthy token = true →
      reviews.filterMap Review.id ≠ [] →
      (∀ rid : Nat,
        dismiss_single_review organization repository (optStrVal token)
          (PyVal.str pull_request_id) (PyVal.num rid) none none none =
          ([], some missing_creds_msg)) ∧
      dismiss_all_reviews organization repository pull_request_id
        token username password reviews =
        ([ApiCall.listReviews organization repository pull_request_id],
          some missing_creds_msg) := by
  intro org repo pr t u p reviews ht hne
  have hinner : ∀ rid : Nat,
      dismiss_single_review org repo (optStrVal t) (PyVal.str pr)
        (PyVal.num rid) none none none = ([], some missing_creds_msg) := by
    intro rid
    simp [dismiss_single_review, build_headers, truthy]
  refine ⟨hinner, ?_⟩
  have hok : build_headers t u p =
      Except.ok (AuthHeader.tokenAuth (t.getD "")) := by
    simp [build_headers, ht]
  obtain ⟨r, rest, hr⟩ := List.exists_cons_of_ne_nil hne
  simp only [dismiss_all_reviews, hok, hr]
  simp [dismissLoop, hinner r]

/-- Witness for C9: one review with id 5, token-only auth. -/
theorem claim_dismiss_all_reviews_misbinding_witness :
    (∀ rid : Nat,
      dismiss_single_review "octo" "repo" (optStrVal (some "tok"))
        (PyVal.str "12") (PyVal.num rid) none none none =
        ([], some missing_creds_msg)) ∧
    dismiss_all_reviews "octo" "repo" "12" (some "tok") none none
      [{ id := some 5 }] =
      ([ApiCall.listReviews "octo" "repo" "12"], some missing_creds_msg) :=
  claim_dismiss_all_reviews_misbinding "octo" "repo" "12" (some "tok")
    none none [{ id := some 5 }] rfl (by decide)

/-- Claim C10: in the dispatcher's merge `{**vars(args), **extras}`, any key
present in the parsed extras dict takes its value from the extras (overriding
the base named CLI parameters, including `token`, `command` and
`pull_request_id`), while keys absent from the extras keep the base value. -/
theorem claim_main_parameters_override :
    ∀ (a : CliArgs) (extras_dict : List (String × PyVal)) (k : String)
      (v : PyVal),
      ((extras_dict.map Prod.fst).Nodup →
        lookupKey k extras_dict = some v →
        lookupKey k (main_parameters a extras_dict) = some v) ∧
      (lookupKey k extras_dict = none →
        lookupKey k (main_parameters a extras_dict) = lookupKey k (varsArgs a)) :=
  fun a _extras _k _v =>
    ⟨fun hnd h => lookupKey_dictMerge_of_some (varsArgs a) hnd h,
      fun h => lookupKey_dictMerge_of_none (varsArgs a) h⟩

/-- Witness for C10: the extras entry `("token", "override")` wins over the
CLI token. -/
theorem claim_main_parameters_override_witness :
    lookupKey "token"
      (main_parameters
        { organization := some "o", repository := some "r",
          token := some "cli-token", username := none, password := none,
          pull_request_id := some "7", command := some "add_labels",
          extras := some "\x7b\x7d" }
        [("token", PyVal.str "override"), ("labels", PyVal.str "deployed")]) =
      some (PyVal.str "override") :=
  (claim_main_parameters_override
    { organization := some "o", repository := some "r",
      token := some "cli-token", username := none, password := none,
      pull_request_id := some "7", command := some "add_labels",
      extras := some "\x7b\x7d" }
    [("token", PyVal.str "override"), ("labels", PyVal.str "deployed")]
    "token" (PyVal.str "override")).1 (by decide) (by decide)
